import Mathlib

/-!
Verification of the Hybrid Retrieval & Reranking Engine of the ai-chat
repository against its natural-language specification.

Shallow embedding conventions:
* Python floats (scores, ranks, distances, weights) are modelled as exact
  rationals `ℚ`; every claim under scrutiny is about exact arithmetic
  (min-max normalization, weighted sums, comparisons), not about rounding.
* Python dicts keyed by chunk UUID are modelled as association lists
  `List (Nat × β)` with insert-or-replace semantics preserving insertion
  order, which is exactly CPython's dict behaviour; UUIDs are modelled
  as `Nat`.
* `sorted(..., key=..., reverse=True)` and `list.sort(key=..., reverse=True)`
  are stable descending sorts; they are modelled by `List.mergeSort` with
  the relation `key b ≤ key a`, which is stable and picks the left element
  on ties, exactly like CPython's stable sort with `reverse=True`.
* Database / network calls (chunk store queries, the OpenAI embeddings
  endpoint, the cross-encoder model) are external collaborators: their
  responses enter the embedded functions as explicit arguments.
-/

/-- Metadata dict attached to a chunk (`chunk_metadata`); the engine only
reads the `"header"` key, so the dict is modelled by that single optional
field. -/
structure ChunkMeta where
  header : Option String
deriving DecidableEq

/-- A persisted chunk row as returned by the chunk store
(`src/models` Chunk): `id` models the UUID primary key. -/
structure Chunk where
  id : Nat
  content : String
  chunk_metadata : Option ChunkMeta
deriving DecidableEq

/-- The expression `chunk.chunk_metadata.get("header") if chunk.chunk_metadata
else None`, used identically at every call site. -/
def headerOf (c : Chunk) : Option String :=
  match c.chunk_metadata with
  | some m => m.header
  | none => none

/-- `mcp_servers/rag/schemas.py` RAGChunk. -/
structure RAGChunk where
  chunk_id : String
  content : String
  header : Option String
  score : ℚ
  search_type : String
deriving DecidableEq

/-- `src/services/rag_service.py` RAGResult. -/
structure RAGResult where
  chunk_id : Nat
  content : String
  header : Option String
  score : ℚ
  search_type : String
deriving DecidableEq

/-- `mcp_servers/rag/schemas.py` RAGSearchResult. -/
structure RAGSearchResult where
  chunks : List RAGChunk
  total_found : Nat
  domain : String
  formatted_context : String
deriving DecidableEq

/-- Python `str.strip()` with no argument: drop leading and trailing
whitespace (modelled on the character list, so that it evaluates by
kernel reduction). -/
def pyStrip (s : String) : String :=
  ⟨((s.data.dropWhile Char.isWhitespace).reverse.dropWhile Char.isWhitespace).reverse⟩

/-- Python `max(...)` over a non-empty sequence (the `[]` case is never
reached by the embedded code, which guards with `len(results) >= 2`). -/
def maxList : List ℚ → ℚ
  | [] => 0
  | x :: xs => xs.foldl max x

/-- Python `min(...)` over a non-empty sequence. -/
def minList : List ℚ → ℚ
  | [] => 0
  | x :: xs => xs.foldl min x

/-- Python `sorted(l, key=key, reverse=True)`: stable descending sort. -/
def sortDescBy {α : Type} (key : α → ℚ) (l : List α) : List α :=
  l.mergeSort fun a b => decide (key b ≤ key a)

/-- Python dict assignment `d[k] = v` on an insertion-ordered association
list: replace in place when the key is present, append otherwise. -/
def insertOrReplace {β : Type} (m : List (Nat × β)) (k : Nat) (v : β) : List (Nat × β) :=
  match List.lookup k m with
  | some _ => m.map fun p => if p.1 = k then (k, v) else p
  | none => m ++ [(k, v)]

namespace Search

/-!
Embedding of `mcp_servers/rag/search.py` (`hybrid_search`, Mode A).
The per-query store responses enter as arguments: one
`List (Chunk × ℚ)` of `(chunk, distance)` pairs per vector query and one
`List (Chunk × ℚ)` of `(chunk, rank)` pairs per fts query.
-/

/-- The value stored in `all_results` for one chunk id:
`(score, content, header)`. -/
structure MergedEntry where
  score : ℚ
  content : String
  header : Option String
deriving DecidableEq

/-- Lines 80-98 / 120-124 / 139-143 of `search.py`: insert a scored chunk
into `all_results`, keeping the existing entry unless the new score is
strictly greater. -/
def upsertMax (m : List (Nat × MergedEntry)) (c : Chunk) (s : ℚ) :
    List (Nat × MergedEntry) :=
  match List.lookup c.id m with
  | some e =>
      if s > e.score then
        m.map fun p => if p.1 = c.id then (c.id, ⟨s, c.content, headerOf c⟩) else p
      else m
  | none => m ++ [(c.id, ⟨s, c.content, headerOf c⟩)]

/-- Lines 80-81: one vector query's results scored by
`score = 1.0 - distance`. -/
def vectorEntries (results : List (Chunk × ℚ)) : List (Chunk × ℚ) :=
  results.map fun p => (p.1, 1 - p.2)

/-- Lines 110-143: one fts query's results with ranks normalized.
A single result gets score `1.0`; otherwise
`rank_range = max_rank - min_rank if max_rank > min_rank else 1.0` and
`score = (rank - min_rank) / rank_range if rank_range > 0 else 1.0`.
An empty result list contributes nothing (the `if results:` guard). -/
def normalizeFts (results : List (Chunk × ℚ)) : List (Chunk × ℚ) :=
  match results with
  | [] => []
  | [(c, _)] => [(c, 1)]
  | _ :: _ :: _ =>
      let max_rank := maxList (results.map Prod.snd)
      let min_rank := minList (results.map Prod.snd)
      let rank_range := if max_rank > min_rank then max_rank - min_rank else 1
      results.map fun p =>
        (p.1, if rank_range > 0 then (p.2 - min_rank) / rank_range else 1)

/-- All scored entries produced by the two loops of `hybrid_search`, in
program order: every vector query's converted results, then every fts
query's normalized results. -/
def scoredEntries (vqs fqs : List (List (Chunk × ℚ))) : List (Chunk × ℚ) :=
  (vqs.map vectorEntries).flatten ++ (fqs.map normalizeFts).flatten

/-- The `all_results` dict after both loops of `hybrid_search`. -/
def mergedMap (vqs fqs : List (List (Chunk × ℚ))) : List (Nat × MergedEntry) :=
  (scoredEntries vqs fqs).foldl (fun m e => upsertMax m e.1 e.2) []

/-- `hybrid_search` of `search.py`: merge with max-aggregation, sort by
score descending, and build `RAGChunk` objects — line 159 sets
`search_type="hybrid"` unconditionally. -/
def hybrid_search (vqs fqs : List (List (Chunk × ℚ))) : List RAGChunk :=
  (sortDescBy (fun p => p.2.score) (mergedMap vqs fqs)).map fun p =>
    { chunk_id := toString p.1
      content := p.2.content
      header := p.2.header
      score := p.2.score
      search_type := "hybrid" }

end Search

namespace RagService

/-!
Embedding of `src/src/services/rag_service.py` (`RAGService`, Mode B).
The store responses (`search_fts`, `search_vector`) and the domain lookup
enter as arguments.
-/

/-- Lines 311-324 of `rag_service.py`: the `fts_scores` dict. A single
result scores `1.0`; otherwise min-max normalization with
`rank_range = max_rank - min_rank if max_rank > min_rank else 1.0` and
`normalized = (rank - min_rank) / rank_range if rank_range > 0 else 1.0`. -/
def ftsScores (fts_results : List (Chunk × ℚ)) : List (Nat × ℚ) :=
  match fts_results with
  | [] => []
  | [(c, _)] => [(c.id, 1)]
  | _ :: _ :: _ =>
      let max_rank := maxList (fts_results.map Prod.snd)
      let min_rank := minList (fts_results.map Prod.snd)
      let rank_range := if max_rank > min_rank then max_rank - min_rank else 1
      fts_results.foldl
        (fun m p =>
          insertOrReplace m p.1.id
            (if rank_range > 0 then (p.2 - min_rank) / rank_range else 1))
        []

/-- Lines 327-329: the `vector_scores` dict, `similarity = 1.0 - distance`. -/
def vectorScores (vector_results : List (Chunk × ℚ)) : List (Nat × ℚ) :=
  vector_results.foldl (fun m p => insertOrReplace m p.1.id (1 - p.2)) []

/-- Lines 338-339: `chunk_map` built from the fts results then updated with
the vector results. -/
def chunkMap (fts_results vector_results : List (Chunk × ℚ)) : List (Nat × Chunk) :=
  (fts_results ++ vector_results).foldl (fun m p => insertOrReplace m p.1.id p.1) []

/-- Line 332: `set(fts_scores.keys()) | set(vector_scores.keys())`, modelled
in first-seen order (the set's iteration order is unspecified in CPython;
no downstream property depends on it beyond tie-breaking). -/
def allChunkIds (fts_results vector_results : List (Chunk × ℚ)) : List Nat :=
  ((ftsScores fts_results).map Prod.fst
    ++ (vectorScores vector_results).map Prod.fst).dedup

/-- `RAGService._search_hybrid`, lines 261-375: normalize both signals,
fuse with `final_score = dense_weight * vector_score + sparse_weight *
fts_score` (missing signals contribute `0.0`), sort descending, take
`top_k`, then keep only results with `score >= min_score`. -/
def searchHybrid (fts_results vector_results : List (Chunk × ℚ))
    (dense_weight sparse_weight : ℚ) (top_k : Nat) (min_score : ℚ) :
    List RAGResult :=
  let fts_scores := ftsScores fts_results
  let vector_scores := vectorScores vector_results
  let chunk_map := chunkMap fts_results vector_results
  let merged := (allChunkIds fts_results vector_results).filterMap fun id =>
    match List.lookup id chunk_map with
    | none => none
    | some c =>
        let fts_score := (List.lookup id fts_scores).getD 0
        let vector_score := (List.lookup id vector_scores).getD 0
        some (id, dense_weight * vector_score + sparse_weight * fts_score,
          c.content, headerOf c)
  let sorted_items := sortDescBy (fun x => x.2.1) merged
  let top_items := sorted_items.take top_k
  top_items.filterMap fun x =>
    if min_score ≤ x.2.1 then
      some { chunk_id := x.1, content := x.2.2.1, header := x.2.2.2,
             score := x.2.1, search_type := "hybrid" }
    else none

/-- `RAGService._search_fts`, lines 155-214: the single-result branch
appends unconditionally with score `1.0`; the multi-result branch filters
by `normalized_score >= min_score`. -/
def searchFts (fts_results : List (Chunk × ℚ)) (min_score : ℚ) : List RAGResult :=
  match fts_results with
  | [] => []
  | [(c, _)] =>
      [{ chunk_id := c.id, content := c.content, header := headerOf c,
         score := 1, search_type := "fts" }]
  | _ :: _ :: _ =>
      let max_rank := maxList (fts_results.map Prod.snd)
      let min_rank := minList (fts_results.map Prod.snd)
      let rank_range := if max_rank > min_rank then max_rank - min_rank else 1
      fts_results.filterMap fun p =>
        let normalized_score := if rank_range > 0 then (p.2 - min_rank) / rank_range else 1
        if min_score ≤ normalized_score then
          some { chunk_id := p.1.id, content := p.1.content, header := headerOf p.1,
                 score := normalized_score, search_type := "fts" }
        else none

/-- `RAGService._search_vector`, lines 216-259: `similarity = 1.0 - distance`,
kept when `similarity >= min_score`. -/
def searchVector (vector_results : List (Chunk × ℚ)) (min_score : ℚ) : List RAGResult :=
  vector_results.filterMap fun p =>
    let similarity := 1 - p.2
    if min_score ≤ similarity then
      some { chunk_id := p.1.id, content := p.1.content, header := headerOf p.1,
             score := similarity, search_type := "vector" }
    else none

/-- `RAGService.search`, lines 91-153: resolve the domain slug (raising
`ValueError: Domain not found` when the lookup misses — modelled as
`Except.error`), then dispatch on `search_type`. -/
def search (agent_id : String) (domainLookup : Option Nat) (search_type : String)
    (fts_results vector_results : List (Chunk × ℚ))
    (dense_weight sparse_weight : ℚ) (top_k : Nat) (min_score : ℚ) :
    Except String (List RAGResult) :=
  match domainLookup with
  | none => Except.error ("Domain not found: " ++ agent_id)
  | some _ =>
      if search_type = "fts" then Except.ok (searchFts fts_results min_score)
      else if search_type = "vector" then Except.ok (searchVector vector_results min_score)
      else Except.ok (searchHybrid fts_results vector_results
        dense_weight sparse_weight top_k min_score)

end RagService

namespace Reranker

/-- `Reranker.rerank` of `mcp_servers/rag/reranker.py`: the cross-encoder
`self._model.predict` enters as the argument `predict`. Each chunk's score
is replaced by the model score of its `(query, content)` pair
(`zip(chunks, scores, strict=False)` truncates to the shorter list), the
rebuilt list is sorted descending by the new score (Python's stable
`list.sort(reverse=True)`), and truncated to `top_k`. Empty input returns
`[]` before `predict` is consulted. -/
def pairsFor (query : String) (chunks : List RAGChunk) : List (String × String) :=
  chunks.map fun c => (query, c.content)

/-- Lines 64-74: the rebuilt chunk with the cross-encoder score in place of
the previous one; all other fields are carried over. -/
def withScore (c : RAGChunk) (new_score : ℚ) : RAGChunk :=
  { chunk_id := c.chunk_id, content := c.content, header := c.header,
    score := new_score, search_type := c.search_type }

def rerank (query : String) (chunks : List RAGChunk) (top_k : Nat)
    (predict : List (String × String) → List ℚ) : List RAGChunk :=
  if chunks.isEmpty then []
  else
    let scores := predict (pairsFor query chunks)
    let reranked := List.zipWith withScore chunks scores
    (sortDescBy (fun c => c.score) reranked).take top_k

end Reranker

namespace Tools

/-- `hybrid_search` of `mcp_servers/rag/tools.py`: the outcome of the inner
`do_hybrid_search` call enters as `searchOutcome` (`Except.error e` models
an exception raised by any step of the search pipeline). The `except
Exception` block at lines 127-143 catches every error and returns an empty
`RAGSearchResult` whose `formatted_context` embeds the error message. -/
def hybrid_search (domain : String) (vector_queries : List String)
    (use_reranker : Bool) (final_top_k : Nat) (min_score : ℚ)
    (predict : List (String × String) → List ℚ)
    (searchOutcome : Except String (List RAGChunk)) : RAGSearchResult :=
  match searchOutcome with
  | Except.error e =>
      { chunks := [], total_found := 0, domain := domain,
        formatted_context := "❌ Ошибка поиска: " ++ e }
  | Except.ok chunks =>
      let chunks :=
        if use_reranker ∧ chunks ≠ [] then
          Reranker.rerank (String.intercalate " " vector_queries) chunks
            final_top_k predict
        else chunks.take final_top_k
      let filtered_chunks := chunks.filter fun c => decide (min_score ≤ c.score)
      let context_parts := filtered_chunks.map fun c =>
        "## " ++ c.header.getD "Информация" ++ "\n\n" ++ c.content
      { chunks := filtered_chunks, total_found := filtered_chunks.length,
        domain := domain,
        formatted_context :=
          if context_parts ≠ [] then String.intercalate "\n\n" context_parts else "" }

end Tools

namespace EmbeddingService

/-!
Embedding of `src/src/services/ingest/embedding_service.py`. The OpenAI
response (the list of vectors extracted in order from `response.data`)
enters as the argument `response`; vector components are modelled as `ℚ`.
-/

/-- Module constant `EMBEDDING_DIMENSION = 1536`. -/
def EMBEDDING_DIMENSION : Nat := 1536

/-- Module constant `MAX_BATCH_SIZE = 100`. -/
def MAX_BATCH_SIZE : Nat := 100

/-- `_generate_with_retry`, lines 124-177: after a successful provider
call, raise on a response count mismatch, otherwise return the vectors. -/
def generateWithRetry (texts : List String) (response : List (List ℚ)) :
    Except String (List (List ℚ)) :=
  if response.length ≠ texts.length then
    Except.error ("Response count mismatch: expected " ++ toString texts.length
      ++ ", got " ++ toString response.length)
  else Except.ok response

/-- `generate_batch`, lines 70-122: empty input short-circuits to `[]`;
a batch over `MAX_BATCH_SIZE` raises; then the dimension of every returned
vector is validated against `EMBEDDING_DIMENSION`, raising at the first
mismatching index. -/
def generate_batch (texts : List String) (response : List (List ℚ)) :
    Except String (List (List ℚ)) :=
  if texts = [] then Except.ok []
  else if MAX_BATCH_SIZE < texts.length then
    Except.error ("Batch size " ++ toString texts.length ++ " exceeds maximum "
      ++ toString MAX_BATCH_SIZE)
  else
    match generateWithRetry texts response with
    | Except.error e => Except.error e
    | Except.ok embeddings =>
        match embeddings.findIdx? (fun emb => emb.length ≠ EMBEDDING_DIMENSION) with
        | some i => Except.error ("Invalid embedding dimension at index " ++ toString i)
        | none => Except.ok embeddings

end EmbeddingService

/-- A parsed document section (`src/src/services/ingest/html_parser.py`,
`ParsedSection`). -/
structure ParsedSection where
  header : String
  header_level : Nat
  content : String
deriving DecidableEq

/-- A chunk produced by the chunker (`ChunkResult`); the two keys of its
`metadata` dict are flattened into the `header` and `header_level`
fields. -/
structure ChunkResult where
  content : String
  chunk_index : Nat
  header : String
  header_level : Nat
deriving DecidableEq

namespace Chunker

/-- The loop body of `Chunker.chunk_sections`, lines 87-124, as a recursion
over the remaining sections: `nSections` is `len(sections)` of the whole
input and `idx` the running `chunk_index`. A section is skipped when its
content is empty or whitespace-only (`not section.content or not
section.content.strip()`), or when it is shorter than `min_chunk_size` and
the document has more than one section. -/
def chunkGo (min_chunk_size nSections idx : Nat) :
    List ParsedSection → List ChunkResult
  | [] => []
  | s :: rest =>
      if s.content = "" ∨ pyStrip s.content = "" then
        chunkGo min_chunk_size nSections idx rest
      else if s.content.length < min_chunk_size ∧ 1 < nSections then
        chunkGo min_chunk_size nSections idx rest
      else
        { content := s.content, chunk_index := idx, header := s.header,
          header_level := s.header_level } :: chunkGo min_chunk_size nSections (idx + 1) rest

/-- `Chunker.chunk_sections` (default `min_chunk_size = 100`). -/
def chunk_sections (min_chunk_size : Nat) (sections : List ParsedSection) :
    List ChunkResult :=
  chunkGo min_chunk_size sections.length 0 sections

end Chunker

namespace HTMLParser

/-!
Embedding of `HTMLParser.parse` (`src/src/services/ingest/html_parser.py`,
lines 53-109). The document is modelled as the flat list of element nodes
of the parsed body in document order (a Google-Docs export body, which the
sibling walk of `parse` traverses); each element carries its tag `name`
and `text`, the string the extraction helpers (`_extract_element_text` /
`get_text` / `_parse_table`) would return for it.
-/

/-- One body-level element of the parsed document. -/
structure Elem where
  name : String
  text : String
deriving DecidableEq

/-- Split the element list at every `h1`, dropping the `h1` elements:
segment `i+1` holds the siblings strictly between the `i`-th `h1` and the
next one (the last segment runs to the end of the document), mirroring
`_get_siblings_between` / `find_next_siblings`. -/
def splitAtH1 : List Elem → List (List Elem)
  | [] => [[]]
  | e :: rest =>
      if e.name = "h1" then [] :: splitAtH1 rest
      else
        match splitAtH1 rest with
        | [] => [[e]]
        | seg :: segs => (e :: seg) :: segs

/-- `_extract_text` (lines 122-149), used only in the no-`h1` branch: walk
the elements, collecting table text when non-empty and `p`/`div`/`span`
text when non-empty and not already collected, joined with blank lines and
stripped. -/
def extractTextStep (parts : List String) (e : Elem) : List String :=
  if e.name = "table" then
    if e.text ≠ "" then parts ++ [e.text] else parts
  else if e.name = "p" ∨ e.name = "div" ∨ e.name = "span" then
    if e.text ≠ "" ∧ e.text ∉ parts then parts ++ [e.text] else parts
  else parts

/-- The joined and stripped result of `_extract_text`. -/
def extractText (doc : List Elem) : String :=
  pyStrip (String.intercalate "\n\n" ((doc.foldl extractTextStep []).filter (· ≠ "")))

/-- `HTMLParser.parse`: with no `h1` in the document, one generic
`"Document"` section holding the whole extracted text (line 80); otherwise
one candidate section per `h1` from the content between it and the next
`h1` (non-`Tag` nodes never contribute; empty texts are dropped, parts are
joined with blank lines and stripped), emitted only when that content is
non-empty (line 105). -/
def parse (doc : List Elem) : List ParsedSection :=
  let h1_tags := doc.filter fun e => e.name = "h1"
  if h1_tags = [] then
    [{ header := "Document", header_level := 1, content := extractText doc }]
  else
    let segs := (splitAtH1 (doc.dropWhile fun e => e.name ≠ "h1")).drop 1
    (h1_tags.zip segs).filterMap fun hs =>
      let content :=
        pyStrip (String.intercalate "\n\n" ((hs.2.map Elem.text).filter fun t => t ≠ ""))
      if content = "" then none
      else some { header := hs.1.text, header_level := 1, content := content }

end HTMLParser


/-- The shared min-max normalization formula of `search.py` lines 126-133
and `rag_service.py` lines 191-199 / 318-323, as a function of the rank
list and one rank:
`rank_range = max_rank - min_rank if max_rank > min_rank else 1.0`,
`score = (rank - min_rank) / rank_range if rank_range > 0 else 1.0`. -/
def normScore (ranks : List ℚ) (r : ℚ) : ℚ :=
  let max_rank := maxList ranks
  let min_rank := minList ranks
  let rank_range := if max_rank > min_rank then max_rank - min_rank else 1
  if rank_range > 0 then (r - min_rank) / rank_range else 1

/-- The value stored for a chunk id after one `upsertMax` step, given the
previous value at that id (if any). -/
def mergeVal (o : Option Search.MergedEntry) (c : Chunk) (s : ℚ) : Search.MergedEntry :=
  match o with
  | none => ⟨s, c.content, headerOf c⟩
  | some e => if s > e.score then ⟨s, c.content, headerOf c⟩ else e

/-- Folding `mergeVal` over a list of scored entries, starting from an
optional previous value. -/
def combineEntries (o : Option Search.MergedEntry) :
    List (Chunk × ℚ) → Option Search.MergedEntry
  | [] => o
  | e :: es => combineEntries (some (mergeVal o e.1 e.2)) es

section HelperLemmas

lemma foldl_max_init_le (l : List ℚ) (b : ℚ) : b ≤ l.foldl max b := by
  induction l generalizing b with
  | nil => exact le_refl b
  | cons y ys ih => exact le_trans (le_max_left b y) (ih (max b y))

lemma foldl_max_mem_le {x : ℚ} (l : List ℚ) (b : ℚ) (h : x ∈ l) : x ≤ l.foldl max b := by
  induction l generalizing b with
  | nil => cases h
  | cons y ys ih =>
    rcases List.mem_cons.mp h with rfl | h2
    · exact le_trans (le_max_right b x) (foldl_max_init_le ys (max b x))
    · exact ih (max b y) h2

lemma le_maxList {x : ℚ} {l : List ℚ} (h : x ∈ l) : x ≤ maxList l := by
  cases l with
  | nil => cases h
  | cons y ys =>
    rcases List.mem_cons.mp h with rfl | h2
    · exact foldl_max_init_le ys x
    · exact foldl_max_mem_le ys y h2

lemma foldl_min_init_le (l : List ℚ) (b : ℚ) : l.foldl min b ≤ b := by
  induction l generalizing b with
  | nil => exact le_refl b
  | cons y ys ih => exact le_trans (ih (min b y)) (min_le_left b y)

lemma foldl_min_mem_le {x : ℚ} (l : List ℚ) (b : ℚ) (h : x ∈ l) : l.foldl min b ≤ x := by
  induction l generalizing b with
  | nil => cases h
  | cons y ys ih =>
    rcases List.mem_cons.mp h with rfl | h2
    · exact le_trans (foldl_min_init_le ys (min b x)) (min_le_right b x)
    · exact ih (min b y) h2

lemma minList_le {x : ℚ} {l : List ℚ} (h : x ∈ l) : minList l ≤ x := by
  cases l with
  | nil => cases h
  | cons y ys =>
    rcases List.mem_cons.mp h with rfl | h2
    · exact foldl_min_init_le ys x
    · exact foldl_min_mem_le ys y h2

lemma foldl_max_all_eq {v : ℚ} (l : List ℚ) (h : ∀ x ∈ l, x = v) : l.foldl max v = v := by
  induction l with
  | nil => rfl
  | cons y ys ih =>
    have hy : y = v := h y (List.mem_cons_self _ _)
    have := ih fun x hx => h x (List.mem_cons_of_mem _ hx)
    simpa [hy] using this

lemma maxList_all_eq {v : ℚ} {l : List ℚ} (h : ∀ x ∈ l, x = v) (hne : l ≠ []) :
    maxList l = v := by
  cases l with
  | nil => exact absurd rfl hne
  | cons y ys =>
    have hy : y = v := h y (List.mem_cons_self _ _)
    subst hy
    exact foldl_max_all_eq ys fun x hx => h x (List.mem_cons_of_mem _ hx)

lemma foldl_min_all_eq {v : ℚ} (l : List ℚ) (h : ∀ x ∈ l, x = v) : l.foldl min v = v := by
  induction l with
  | nil => rfl
  | cons y ys ih =>
    have hy : y = v := h y (List.mem_cons_self _ _)
    have := ih fun x hx => h x (List.mem_cons_of_mem _ hx)
    simpa [hy] using this

lemma minList_all_eq {v : ℚ} {l : List ℚ} (h : ∀ x ∈ l, x = v) (hne : l ≠ []) :
    minList l = v := by
  cases l with
  | nil => exact absurd rfl hne
  | cons y ys =>
    have hy : y = v := h y (List.mem_cons_self _ _)
    subst hy
    exact foldl_min_all_eq ys fun x hx => h x (List.mem_cons_of_mem _ hx)

lemma minList_lt_maxList {ranks : List ℚ} {p q : ℚ} (hp : p ∈ ranks) (hq : q ∈ ranks)
    (hne : p ≠ q) : minList ranks < maxList ranks := by
  rcases lt_or_gt_of_ne hne with h | h
  · exact lt_of_le_of_lt (minList_le hp) (lt_of_lt_of_le h (le_maxList hq))
  · exact lt_of_le_of_lt (minList_le hq) (lt_of_lt_of_le h (le_maxList hp))

lemma normScore_bounds {ranks : List ℚ} {r : ℚ} (hr : r ∈ ranks)
    (hlt : minList ranks < maxList ranks) :
    0 ≤ normScore ranks r ∧ normScore ranks r ≤ 1 := by
  have hpos : (0 : ℚ) < maxList ranks - minList ranks := sub_pos.mpr hlt
  unfold normScore
  dsimp only
  rw [if_pos hlt, if_pos hpos]
  constructor
  · exact div_nonneg (sub_nonneg.mpr (minList_le hr)) (le_of_lt hpos)
  · rw [div_le_one hpos]
    exact sub_le_sub_right (le_maxList hr) _

lemma normScore_of_max {ranks : List ℚ} (hlt : minList ranks < maxList ranks) :
    normScore ranks (maxList ranks) = 1 := by
  have hpos : (0 : ℚ) < maxList ranks - minList ranks := sub_pos.mpr hlt
  unfold normScore
  dsimp only
  rw [if_pos hlt, if_pos hpos]
  exact div_self (ne_of_gt hpos)

lemma normScore_of_min {ranks : List ℚ} (hlt : minList ranks < maxList ranks) :
    normScore ranks (minList ranks) = 0 := by
  have hpos : (0 : ℚ) < maxList ranks - minList ranks := sub_pos.mpr hlt
  unfold normScore
  dsimp only
  rw [if_pos hlt, if_pos hpos, sub_self, zero_div]

lemma normScore_all_eq {ranks : List ℚ} {v : ℚ} (h : ∀ x ∈ ranks, x = v)
    (hne : ranks ≠ []) {r : ℚ} (hr : r ∈ ranks) : normScore ranks r = 0 := by
  have hmax : maxList ranks = v := maxList_all_eq h hne
  have hmin : minList ranks = v := minList_all_eq h hne
  have hrv : r = v := h r hr
  unfold normScore
  dsimp only
  rw [hmax, hmin, hrv]
  rw [if_neg (lt_irrefl v), if_pos one_pos, sub_self, zero_div]

lemma normalizeFts_two_le {results : List (Chunk × ℚ)} (h : 2 ≤ results.length) :
    Search.normalizeFts results
      = results.map fun p => (p.1, normScore (results.map Prod.snd) p.2) := by
  match results with
  | [] => simp at h
  | [_] => simp at h
  | a :: b :: t => rfl

lemma ftsScores_two_le {results : List (Chunk × ℚ)} (h : 2 ≤ results.length) :
    RagService.ftsScores results
      = results.foldl
          (fun m p => insertOrReplace m p.1.id (normScore (results.map Prod.snd) p.2))
          [] := by
  match results with
  | [] => simp at h
  | [_] => simp at h
  | a :: b :: t => rfl

end HelperLemmas

section DictLemmas

lemma mem_insertOrReplace {β : Type} {m : List (Nat × β)} {k : Nat} {v : β}
    {q : Nat × β} (h : q ∈ insertOrReplace m k v) : q ∈ m ∨ q = (k, v) := by
  unfold insertOrReplace at h
  cases hl : List.lookup k m with
  | some e =>
      rw [hl] at h
      rcases List.mem_map.mp h with ⟨p, hp, he⟩
      by_cases hpk : p.1 = k
      · rw [if_pos hpk] at he
        exact Or.inr he.symm
      · rw [if_neg hpk] at he
        exact Or.inl (he ▸ hp)
  | none =>
      rw [hl] at h
      rcases List.mem_append.mp h with h2 | h2
      · exact Or.inl h2
      · exact Or.inr (List.mem_singleton.mp h2)

lemma foldl_insertOrReplace_mem {α β : Type} (key : α → Nat) (val : α → β)
    (l : List α) (m : List (Nat × β)) {q : Nat × β}
    (h : q ∈ l.foldl (fun m a => insertOrReplace m (key a) (val a)) m) :
    q ∈ m ∨ ∃ a ∈ l, q = (key a, val a) := by
  induction l generalizing m with
  | nil => exact Or.inl h
  | cons a as ih =>
      rcases ih (insertOrReplace m (key a) (val a)) h with h2 | h2
      · rcases mem_insertOrReplace h2 with h3 | h3
        · exact Or.inl h3
        · exact Or.inr ⟨a, List.mem_cons_self _ _, h3⟩
      · rcases h2 with ⟨b, hb, hq⟩
        exact Or.inr ⟨b, List.mem_cons_of_mem _ hb, hq⟩

lemma lookup_eq_none_of_keys {β : Type} {m : List (Nat × β)} {k : Nat}
    (h : ∀ p ∈ m, p.1 ≠ k) : List.lookup k m = none := by
  induction m with
  | nil => rfl
  | cons p ps ih =>
      have hp : p.1 ≠ k := h p (List.mem_cons_self _ _)
      have : (k == p.1) = false := beq_false_of_ne fun hk => hp hk.symm
      simp only [List.lookup, this]
      exact ih fun q hq => h q (List.mem_cons_of_mem _ hq)

lemma foldl_insertOrReplace_eq_append {α β : Type} (key : α → Nat) (val : α → β)
    (l : List α) (m : List (Nat × β))
    (hdisj : ∀ a ∈ l, ∀ p ∈ m, p.1 ≠ key a) (hnd : (l.map key).Nodup) :
    l.foldl (fun m a => insertOrReplace m (key a) (val a)) m
      = m ++ l.map fun a => (key a, val a) := by
  induction l generalizing m with
  | nil => simp
  | cons a as ih =>
      have hnone : List.lookup (key a) m = none :=
        lookup_eq_none_of_keys fun p hp => hdisj a (List.mem_cons_self _ _) p hp
      have hstep : insertOrReplace m (key a) (val a) = m ++ [(key a, val a)] := by
        unfold insertOrReplace
        rw [hnone]
      rw [List.foldl_cons, hstep]
      have hnd' : (as.map key).Nodup := (List.nodup_cons.mp (by simpa using hnd)).2
      have hka : key a ∉ as.map key := (List.nodup_cons.mp (by simpa using hnd)).1
      rw [ih (m ++ [(key a, val a)]) ?_ hnd']
      · simp
      · intro b hb p hp
        rcases List.mem_append.mp hp with h2 | h2
        · exact hdisj b (List.mem_cons_of_mem _ hb) p h2
        · rcases List.mem_singleton.mp h2 with rfl
          intro hk
          have hk' : key a = key b := hk
          rw [hk'] at hka
          exact hka (List.mem_map_of_mem key hb)

lemma mem_of_lookup_eq_some {β : Type} {m : List (Nat × β)} {k : Nat} {v : β}
    (h : List.lookup k m = some v) : (k, v) ∈ m := by
  induction m with
  | nil => cases h
  | cons p ps ih =>
      by_cases hk : k = p.1
      · have : (k == p.1) = true := beq_iff_eq.mpr hk
        simp only [List.lookup, this] at h
        cases h
        exact hk ▸ List.mem_cons_self _ _
      · have : (k == p.1) = false := beq_false_of_ne hk
        simp only [List.lookup, this] at h
        exact List.mem_cons_of_mem _ (ih h)

end DictLemmas

/-- C1. The claim says: in both normalization sites, a sparse result set of
two or more items whose ranks are all equal normalizes every item's score
to `1.0`. The code refutes it: `rank_range` is set to `1.0` exactly when
`max_rank > min_rank` fails, so the guard `if rank_range > 0 else 1.0`
never takes its `1.0` branch, and every item gets `(rank - min_rank) / 1.0
= 0.0`. Here two chunks with equal rank `3.0` both normalize to `0.0`,
not `1.0`, in Mode A (`search.py hybrid_search`) and in Mode B
(`RAGService._search_hybrid`). -/
theorem sparse_equal_ranks_counterexample :
    (Search.normalizeFts [(⟨1, "a", none⟩, 3), (⟨2, "b", none⟩, 3)]).map Prod.snd
        = [0, 0]
      ∧ (RagService.ftsScores [(⟨1, "a", none⟩, 3), (⟨2, "b", none⟩, 3)]).map Prod.snd
        = [0, 0]
      ∧ (0 : ℚ) ≠ 1 := by
  refine ⟨?_, ?_, by norm_num⟩
  · simp [Search.normalizeFts, maxList, minList]
  · simp [RagService.ftsScores, maxList, minList, insertOrReplace, List.lookup]

/-- C1 (amended). In sparse-score normalization (used by both Mode A
`hybrid_search` and Mode B `_search_hybrid`), for every sparse result set
of two or more items in which every rank is equal, each item's normalized
score is `0.0` (the degenerate zero-range case makes `rank_range` default
to `1.0`, so each score is `(rank - min_rank) / 1.0 = 0.0`), not `1.0`. -/
theorem sparse_equal_ranks_normalize_to_zero
    (results : List (Chunk × ℚ)) (r0 : ℚ)
    (hlen : 2 ≤ results.length) (heq : ∀ p ∈ results, p.2 = r0) :
    (∀ q ∈ Search.normalizeFts results, q.2 = 0)
      ∧ (∀ q ∈ RagService.ftsScores results, q.2 = 0) := by
  have hne : results.map Prod.snd ≠ [] := by
    cases results with
    | nil => simp at hlen
    | cons a t => simp
  have hall : ∀ x ∈ results.map Prod.snd, x = r0 := by
    intro x hx
    rcases List.mem_map.mp hx with ⟨p, hp, rfl⟩
    exact heq p hp
  have hzero : ∀ p ∈ results, normScore (results.map Prod.snd) p.2 = 0 := fun p hp =>
    normScore_all_eq hall hne (List.mem_map_of_mem Prod.snd hp)
  constructor
  · intro q hq
    rw [normalizeFts_two_le hlen] at hq
    rcases List.mem_map.mp hq with ⟨p, hp, rfl⟩
    exact hzero p hp
  · intro q hq
    rw [ftsScores_two_le hlen] at hq
    rcases foldl_insertOrReplace_mem (fun p => p.1.id)
        (fun p => normScore (results.map Prod.snd) p.2) results [] hq with h | ⟨p, hp, rfl⟩
    · cases h
    · exact hzero p hp

/-- Witness for C1 (amended): the two-chunk equal-rank input. -/
theorem sparse_equal_ranks_normalize_to_zero_witness :
    (∀ q ∈ Search.normalizeFts [(⟨1, "a", none⟩, 3), (⟨2, "b", none⟩, 3)], q.2 = 0)
      ∧ (∀ q ∈ RagService.ftsScores [(⟨1, "a", none⟩, 3), (⟨2, "b", none⟩, 3)], q.2 = 0) :=
  sparse_equal_ranks_normalize_to_zero [(⟨1, "a", none⟩, 3), (⟨2, "b", none⟩, 3)] 3
    (by simp) (by simp)

/-- C2. The claim says a Mode A result's `search_kind` is `hybrid` iff the
chunk was seen from both signal types, with a single-signal chunk tagged by
its originating signal. The code refutes it: chunk `1` is returned by one
dense (vector) query only — the sparse query list is empty — yet its tag
is `"hybrid"` (line 159 of `search.py` hardcodes `search_type="hybrid"`),
not the dense/vector tag. -/
theorem search_kind_counterexample :
    Search.hybrid_search [[(⟨1, "melatonin info", none⟩, 1/2)]] []
        = [{ chunk_id := "1", content := "melatonin info", header := none,
             score := 1/2, search_type := "hybrid" }]
      ∧ "hybrid" ≠ "dense" ∧ "hybrid" ≠ "vector" := by
  refine ⟨?_, by decide, by decide⟩
  simp [Search.hybrid_search, Search.mergedMap, Search.scoredEntries,
    Search.vectorEntries, Search.upsertMax, sortDescBy, List.lookup, headerOf]
  norm_num
  rfl

/-- C2 (amended). In Mode A `hybrid_search`, every returned result carries
the tag `"hybrid"`, regardless of whether the chunk was seen from the
dense signal, the sparse signal, or both. -/
theorem search_kind_always_hybrid (vqs fqs : List (List (Chunk × ℚ)))
    {r : RAGChunk} (hr : r ∈ Search.hybrid_search vqs fqs) :
    r.search_type = "hybrid" := by
  rcases List.mem_map.mp hr with ⟨p, _, rfl⟩
  rfl

/-- Witness for C2 (amended): the dense-only single-chunk search at
distance `0`, whose one result is tagged `"hybrid"`. -/
theorem search_kind_always_hybrid_witness :
    ({ chunk_id := "1", content := "melatonin info", header := none, score := 1,
       search_type := "hybrid" } : RAGChunk).search_type = "hybrid" :=
  search_kind_always_hybrid [[(⟨1, "melatonin info", none⟩, 0)]] []
    (r := { chunk_id := "1", content := "melatonin info", header := none, score := 1,
            search_type := "hybrid" })
    (by
      simp [Search.hybrid_search, Search.mergedMap, Search.scoredEntries,
        Search.vectorEntries, Search.upsertMax, sortDescBy, List.lookup, headerOf]
      rfl)

/-- C4. For every sparse result set of ≥ 2 items whose ranks are not all
equal, normalized scores lie in `[0,1]`; every item ranked at the maximum
normalizes to exactly `1.0` and every item ranked at the minimum to
exactly `0.0` — in Mode A (`Search.normalizeFts`) by membership of the
normalized pair, and in Mode B (`RagService.ftsScores`, whose result sets
from the store carry pairwise-distinct chunk ids) by membership in the
score dict. A one-item result set scores `1.0` at both sites. -/
theorem sparse_minmax_normalization :
    (∀ results : List (Chunk × ℚ),
      2 ≤ results.length →
      (∃ p ∈ results, ∃ q ∈ results, p.2 ≠ q.2) →
      (∀ e ∈ Search.normalizeFts results, 0 ≤ e.2 ∧ e.2 ≤ 1)
        ∧ (∀ p ∈ results, p.2 = maxList (results.map Prod.snd) →
            (p.1, (1 : ℚ)) ∈ Search.normalizeFts results)
        ∧ (∀ p ∈ results, p.2 = minList (results.map Prod.snd) →
            (p.1, (0 : ℚ)) ∈ Search.normalizeFts results)
        ∧ (∀ e ∈ RagService.ftsScores results, 0 ≤ e.2 ∧ e.2 ≤ 1)
        ∧ ((results.map fun p => p.1.id).Nodup →
            ∀ p ∈ results,
              (p.2 = maxList (results.map Prod.snd) →
                (p.1.id, (1 : ℚ)) ∈ RagService.ftsScores results)
              ∧ (p.2 = minList (results.map Prod.snd) →
                (p.1.id, (0 : ℚ)) ∈ RagService.ftsScores results)))
    ∧ (∀ (c : Chunk) (r : ℚ),
        Search.normalizeFts [(c, r)] = [(c, 1)]
          ∧ RagService.ftsScores [(c, r)] = [(c.id, 1)]) := by
  constructor
  · intro results hlen hne
    obtain ⟨p0, hp0, q0, hq0, hpq⟩ := hne
    have hlt : minList (results.map Prod.snd) < maxList (results.map Prod.snd) :=
      minList_lt_maxList (List.mem_map_of_mem Prod.snd hp0)
        (List.mem_map_of_mem Prod.snd hq0) hpq
    have hmapA := normalizeFts_two_le hlen
    have hmapB := ftsScores_two_le hlen
    refine ⟨?_, ?_, ?_, ?_, ?_⟩
    · intro e he
      rw [hmapA] at he
      rcases List.mem_map.mp he with ⟨p, hp, rfl⟩
      exact normScore_bounds (List.mem_map_of_mem Prod.snd hp) hlt
    · intro p hp hmax
      rw [hmapA]
      refine List.mem_map.mpr ⟨p, hp, ?_⟩
      rw [hmax, normScore_of_max hlt]
    · intro p hp hmin
      rw [hmapA]
      refine List.mem_map.mpr ⟨p, hp, ?_⟩
      rw [hmin, normScore_of_min hlt]
    · intro e he
      rw [hmapB] at he
      rcases foldl_insertOrReplace_mem (fun p => p.1.id)
          (fun p => normScore (results.map Prod.snd) p.2) results [] he with h | ⟨p, hp, rfl⟩
      · cases h
      · exact normScore_bounds (List.mem_map_of_mem Prod.snd hp) hlt
    · intro hnd p hp
      rw [hmapB, foldl_insertOrReplace_eq_append (fun p => p.1.id)
          (fun p => normScore (results.map Prod.snd) p.2) results [] (by simp) hnd]
      constructor
      · intro hmax
        refine List.mem_append.mpr (Or.inr (List.mem_map.mpr ⟨p, hp, ?_⟩))
        rw [hmax, normScore_of_max hlt]
      · intro hmin
        refine List.mem_append.mpr (Or.inr (List.mem_map.mpr ⟨p, hp, ?_⟩))
        rw [hmin, normScore_of_min hlt]
  · intro c r
    exact ⟨rfl, rfl⟩

/-- Witness for C4: a two-item result set with ranks `1` and `3` (plus the
singleton case at rank `5`). -/
theorem sparse_minmax_normalization_witness :
    ((∀ e ∈ Search.normalizeFts [(⟨1, "a", none⟩, 1), (⟨2, "b", none⟩, 3)],
        0 ≤ e.2 ∧ e.2 ≤ 1)
      ∧ (∀ p ∈ [((⟨1, "a", none⟩ : Chunk), (1 : ℚ)), (⟨2, "b", none⟩, 3)],
          p.2 = maxList ([((⟨1, "a", none⟩ : Chunk), (1 : ℚ)), (⟨2, "b", none⟩, 3)].map Prod.snd) →
            (p.1, (1 : ℚ)) ∈ Search.normalizeFts [(⟨1, "a", none⟩, 1), (⟨2, "b", none⟩, 3)])
      ∧ (∀ p ∈ [((⟨1, "a", none⟩ : Chunk), (1 : ℚ)), (⟨2, "b", none⟩, 3)],
          p.2 = minList ([((⟨1, "a", none⟩ : Chunk), (1 : ℚ)), (⟨2, "b", none⟩, 3)].map Prod.snd) →
            (p.1, (0 : ℚ)) ∈ Search.normalizeFts [(⟨1, "a", none⟩, 1), (⟨2, "b", none⟩, 3)])
      ∧ (∀ e ∈ RagService.ftsScores [(⟨1, "a", none⟩, 1), (⟨2, "b", none⟩, 3)],
          0 ≤ e.2 ∧ e.2 ≤ 1)
      ∧ (([((⟨1, "a", none⟩ : Chunk), (1 : ℚ)), (⟨2, "b", none⟩, 3)].map fun p => p.1.id).Nodup →
          ∀ p ∈ [((⟨1, "a", none⟩ : Chunk), (1 : ℚ)), (⟨2, "b", none⟩, 3)],
            (p.2 = maxList ([((⟨1, "a", none⟩ : Chunk), (1 : ℚ)), (⟨2, "b", none⟩, 3)].map Prod.snd) →
              (p.1.id, (1 : ℚ)) ∈ RagService.ftsScores [(⟨1, "a", none⟩, 1), (⟨2, "b", none⟩, 3)])
            ∧ (p.2 = minList ([((⟨1, "a", none⟩ : Chunk), (1 : ℚ)), (⟨2, "b", none⟩, 3)].map Prod.snd) →
              (p.1.id, (0 : ℚ)) ∈ RagService.ftsScores [(⟨1, "a", none⟩, 1), (⟨2, "b", none⟩, 3)])))
    ∧ (Search.normalizeFts [((⟨5, "c", none⟩ : Chunk), (5 : ℚ))] = [(⟨5, "c", none⟩, 1)]
        ∧ RagService.ftsScores [((⟨5, "c", none⟩ : Chunk), (5 : ℚ))] = [(5, 1)]) :=
  ⟨sparse_minmax_normalization.1 [(⟨1, "a", none⟩, 1), (⟨2, "b", none⟩, 3)]
      (by simp)
      ⟨(⟨1, "a", none⟩, 1), by simp, (⟨2, "b", none⟩, 3), by simp, by decide⟩,
    sparse_minmax_normalization.2 ⟨5, "c", none⟩ 5⟩

section MergeLemmas

lemma lookup_cons_hit {β : Type} (p : Nat × β) (rest : List (Nat × β)) (id : Nat)
    (h : id = p.1) : List.lookup id (p :: rest) = some p.2 := by
  cases p with
  | mk k v =>
      subst h
      simp [List.lookup]

lemma lookup_cons_miss {β : Type} (p : Nat × β) (rest : List (Nat × β)) (id : Nat)
    (h : id ≠ p.1) : List.lookup id (p :: rest) = List.lookup id rest := by
  cases p with
  | mk k v =>
      have hb : (id == k) = false := beq_false_of_ne h
      simp [List.lookup, hb]

lemma lookup_append {β : Type} (m n : List (Nat × β)) (k : Nat) :
    List.lookup k (m ++ n) = (List.lookup k m).or (List.lookup k n) := by
  induction m with
  | nil => rfl
  | cons p ps ih =>
      by_cases hk : k = p.1
      · rw [List.cons_append, lookup_cons_hit p (ps ++ n) k hk, lookup_cons_hit p ps k hk]
        rfl
      · rw [List.cons_append, lookup_cons_miss p (ps ++ n) k hk, lookup_cons_miss p ps k hk]
        exact ih

lemma lookup_map_replace {β : Type} (m : List (Nat × β)) (k : Nat) (v : β) (id : Nat) :
    List.lookup id (m.map fun p => if p.1 = k then (k, v) else p)
      = if id = k then (List.lookup k m).map fun _ => v else List.lookup id m := by
  induction m with
  | nil => by_cases h : id = k <;> simp [h, List.lookup]
  | cons p ps ih =>
      rw [List.map_cons]
      by_cases hpk : p.1 = k
      · rw [if_pos hpk]
        by_cases hid : id = k
        · rw [lookup_cons_hit (k, v) _ id hid, if_pos hid,
            lookup_cons_hit p ps k hpk.symm]
          rfl
        · rw [lookup_cons_miss (k, v) _ id hid, ih, if_neg hid, if_neg hid,
            lookup_cons_miss p ps id (hpk ▸ hid)]
      · rw [if_neg hpk]
        by_cases hid : id = p.1
        · have hidk : ¬ id = k := fun h => hpk (hid ▸ h)
          rw [lookup_cons_hit p _ id hid, if_neg hidk, lookup_cons_hit p ps id hid]
        · rw [lookup_cons_miss p _ id hid, ih]
          by_cases hk : id = k
          · rw [if_pos hk, if_pos hk, lookup_cons_miss p ps k (hk ▸ hid)]
          · rw [if_neg hk, if_neg hk, lookup_cons_miss p ps id hid]

lemma lookup_upsertMax (m : List (Nat × Search.MergedEntry)) (c : Chunk) (s : ℚ)
    (id : Nat) :
    List.lookup id (Search.upsertMax m c s)
      = if id = c.id then some (mergeVal (List.lookup c.id m) c s)
        else List.lookup id m := by
  cases hm : List.lookup c.id m with
  | none =>
      have hstep : Search.upsertMax m c s
          = m ++ [(c.id, ⟨s, c.content, headerOf c⟩)] := by
        unfold Search.upsertMax
        rw [hm]
      rw [hstep, lookup_append]
      by_cases hid : id = c.id
      · rw [if_pos hid, lookup_cons_hit (c.id, (⟨s, c.content, headerOf c⟩ : Search.MergedEntry)) [] id hid,
          hid, hm]
        rfl
      · rw [if_neg hid, lookup_cons_miss (c.id, (⟨s, c.content, headerOf c⟩ : Search.MergedEntry)) [] id hid]
        cases List.lookup id m <;> rfl
  | some e =>
      have hstep : Search.upsertMax m c s
          = if s > e.score then
              m.map fun p => if p.1 = c.id then (c.id, ⟨s, c.content, headerOf c⟩) else p
            else m := by
        unfold Search.upsertMax
        rw [hm]
      rw [hstep]
      by_cases hs : s > e.score
      · rw [if_pos hs, lookup_map_replace]
        by_cases hid : id = c.id
        · rw [if_pos hid, if_pos hid, hm]
          simp [mergeVal, if_pos hs]
        · rw [if_neg hid, if_neg hid]
      · rw [if_neg hs]
        by_cases hid : id = c.id
        · rw [if_pos hid, hid, hm]
          simp [mergeVal, if_neg hs]
        · rw [if_neg hid]

lemma lookup_foldl_upsertMax (es : List (Chunk × ℚ)) (m : List (Nat × Search.MergedEntry))
    (id : Nat) :
    List.lookup id (es.foldl (fun m e => Search.upsertMax m e.1 e.2) m)
      = combineEntries (List.lookup id m) (es.filter fun e => decide (e.1.id = id)) := by
  induction es generalizing m with
  | nil => rfl
  | cons e es ih =>
      rw [List.foldl_cons, ih]
      by_cases h : e.1.id = id
      · have hb : decide (e.1.id = id) = true := decide_eq_true h
        have hfc : List.filter (fun e => decide (e.1.id = id)) (e :: es)
            = e :: List.filter (fun e => decide (e.1.id = id)) es := by
          simp [List.filter_cons, hb]
        rw [hfc]
        show combineEntries (List.lookup id (Search.upsertMax m e.1 e.2)) _
          = combineEntries (some (mergeVal (List.lookup id m) e.1 e.2)) _
        rw [lookup_upsertMax, if_pos h.symm, h]
      · have hb : decide (e.1.id = id) = false := decide_eq_false h
        have hfc : List.filter (fun e => decide (e.1.id = id)) (e :: es)
            = List.filter (fun e => decide (e.1.id = id)) es := by
          simp [List.filter_cons, hb]
        rw [hfc]
        show combineEntries (List.lookup id (Search.upsertMax m e.1 e.2)) _
          = combineEntries (List.lookup id m) _
        rw [lookup_upsertMax, if_neg fun hh => h hh.symm]

lemma if_gt_eq_max (v s : ℚ) : (if s > v then s else v) = max v s := by
  rcases le_or_lt s v with h | h
  · rw [if_neg (not_lt_of_le h), max_eq_left h]
  · rw [if_pos h, max_eq_right (le_of_lt h)]

lemma combineEntries_some_score (es : List (Chunk × ℚ)) :
    ∀ v : Search.MergedEntry, ∃ w : Search.MergedEntry,
      combineEntries (some v) es = some w
        ∧ w.score = (es.map Prod.snd).foldl max v.score := by
  induction es with
  | nil => exact fun v => ⟨v, rfl, rfl⟩
  | cons e es ih =>
      intro v
      obtain ⟨w, hw, hws⟩ := ih (mergeVal (some v) e.1 e.2)
      refine ⟨w, hw, ?_⟩
      rw [hws]
      have hscore : (mergeVal (some v) e.1 e.2).score = max v.score e.2 := by
        unfold mergeVal
        rw [apply_ite Search.MergedEntry.score, if_gt_eq_max]
      rw [hscore, List.map_cons, List.foldl_cons]

end MergeLemmas

/-- C3. In Mode A `hybrid_search`, whenever some scored entry for chunk id
`id` is produced by any sub-query (dense entries scored `1 - distance`,
sparse entries min-max normalized), the merged `all_results` dict holds a
single entry for `id` whose score is the maximum of all scores seen for
that id, and the returned result list contains a result for `id` carrying
exactly that score. -/
theorem merge_keeps_max_score (vqs fqs : List (List (Chunk × ℚ))) (id : Nat)
    (hid : ∃ p ∈ Search.scoredEntries vqs fqs, p.1.id = id) :
    ∃ e : Search.MergedEntry,
      List.lookup id (Search.mergedMap vqs fqs) = some e
        ∧ e.score = maxList (((Search.scoredEntries vqs fqs).filter
            fun p => decide (p.1.id = id)).map Prod.snd)
        ∧ ∃ r ∈ Search.hybrid_search vqs fqs,
            r.chunk_id = toString id ∧ r.score = e.score := by
  have hlk := lookup_foldl_upsertMax (Search.scoredEntries vqs fqs) [] id
  obtain ⟨p0, hp0, hp0id⟩ := hid
  have hp0f : p0 ∈ (Search.scoredEntries vqs fqs).filter fun p => decide (p.1.id = id) :=
    List.mem_filter.mpr ⟨hp0, decide_eq_true hp0id⟩
  cases hf : (Search.scoredEntries vqs fqs).filter fun p => decide (p.1.id = id) with
  | nil => rw [hf] at hp0f; cases hp0f
  | cons f0 rest =>
      rw [hf] at hlk
      have hcomb : combineEntries (List.lookup id ([] : List (Nat × Search.MergedEntry)))
          (f0 :: rest) = combineEntries (some ⟨f0.2, f0.1.content, headerOf f0.1⟩) rest := rfl
      obtain ⟨w, hw, hws⟩ :=
        combineEntries_some_score rest (⟨f0.2, f0.1.content, headerOf f0.1⟩ : Search.MergedEntry)
      have hlookup : List.lookup id (Search.mergedMap vqs fqs) = some w := by
        show List.lookup id ((Search.scoredEntries vqs fqs).foldl
          (fun m e => Search.upsertMax m e.1 e.2) []) = some w
        rw [hlk, hcomb, hw]
      refine ⟨w, hlookup, ?_, ?_⟩
      · rw [hws]
        rfl
      · have hmem : (id, w) ∈ Search.mergedMap vqs fqs := mem_of_lookup_eq_some hlookup
        have hmem' : (id, w) ∈ sortDescBy (fun p => p.2.score) (Search.mergedMap vqs fqs) :=
          (List.mergeSort_perm (Search.mergedMap vqs fqs) _).mem_iff.mpr hmem
        exact ⟨_, List.mem_map_of_mem _ hmem', rfl, rfl⟩

/-- Witness for C3: chunk `7` appears from two dense sub-queries with
distances `6/10` and `1/10`, i.e. scores `0.4` and `0.9`. -/
theorem merge_keeps_max_score_witness :
    ∃ e : Search.MergedEntry,
      List.lookup 7 (Search.mergedMap
          [[(⟨7, "melatonin", none⟩, 6/10)], [(⟨7, "melatonin", none⟩, 1/10)]] []) = some e
        ∧ e.score = maxList (((Search.scoredEntries
            [[(⟨7, "melatonin", none⟩, 6/10)], [(⟨7, "melatonin", none⟩, 1/10)]] []).filter
            fun p => decide (p.1.id = 7)).map Prod.snd)
        ∧ ∃ r ∈ Search.hybrid_search
            [[(⟨7, "melatonin", none⟩, 6/10)], [(⟨7, "melatonin", none⟩, 1/10)]] [],
            r.chunk_id = toString 7 ∧ r.score = e.score :=
  merge_keeps_max_score [[(⟨7, "melatonin", none⟩, 6/10)], [(⟨7, "melatonin", none⟩, 1/10)]] [] 7
    ⟨(⟨7, "melatonin", none⟩, 1 - 6/10),
      by simp [Search.scoredEntries, Search.vectorEntries], rfl⟩

section SortLemmas

lemma sortDescBy_pairwise {α : Type} (key : α → ℚ) (l : List α) :
    List.Pairwise (fun a b => key b ≤ key a) (sortDescBy key l) := by
  have htrans : ∀ a b c : α, (fun a b => decide (key b ≤ key a)) a b = true →
      (fun a b => decide (key b ≤ key a)) b c = true →
      (fun a b => decide (key b ≤ key a)) a c = true := by
    intro a b c hab hbc
    exact decide_eq_true (le_trans (of_decide_eq_true hbc) (of_decide_eq_true hab))
  have htotal : ∀ a b : α, ((fun a b => decide (key b ≤ key a)) a b
      || (fun a b => decide (key b ≤ key a)) b a) = true := by
    intro a b
    rcases le_total (key b) (key a) with h | h
    · simp [h]
    · simp [h]
  exact (List.sorted_mergeSort htrans htotal l).imp fun h => of_decide_eq_true h

lemma mem_sortDescBy {α : Type} {key : α → ℚ} {l : List α} {x : α} :
    x ∈ sortDescBy key l ↔ x ∈ l :=
  (List.mergeSort_perm l _).mem_iff

end SortLemmas

/-- C5. Mode B hybrid search (`RAGService._search_hybrid`): for every pair
of store result sets, weights, `top_k` and `min_score`, the returned list
has length at most `top_k`, contains no result scored below `min_score`,
and is sorted descending by score (the merged candidates are sorted
descending by weighted `final_score`, truncated to `top_k`, then filtered
by `min_score`). -/
theorem mode_b_topk_minscore (fts_results vector_results : List (Chunk × ℚ))
    (dense_weight sparse_weight : ℚ) (top_k : Nat) (min_score : ℚ) :
    (RagService.searchHybrid fts_results vector_results dense_weight sparse_weight
        top_k min_score).length ≤ top_k
      ∧ (∀ r ∈ RagService.searchHybrid fts_results vector_results dense_weight
          sparse_weight top_k min_score, min_score ≤ r.score)
      ∧ List.Pairwise (fun a b : RAGResult => b.score ≤ a.score)
          (RagService.searchHybrid fts_results vector_results dense_weight sparse_weight
            top_k min_score) := by
  unfold RagService.searchHybrid
  refine ⟨?_, ?_, ?_⟩
  · refine le_trans (List.length_filterMap_le _ _) ?_
    rw [List.length_take]
    exact inf_le_left
  · intro r hr
    rcases List.mem_filterMap.mp hr with ⟨x, _, hfx⟩
    by_cases hc : min_score ≤ x.2.1
    · rw [if_pos hc] at hfx
      cases hfx
      exact hc
    · rw [if_neg hc] at hfx
      cases hfx
  · have hsorted := sortDescBy_pairwise (fun x : Nat × ℚ × String × Option String => x.2.1)
      ((RagService.allChunkIds fts_results vector_results).filterMap fun id =>
        match List.lookup id (RagService.chunkMap fts_results vector_results) with
        | none => none
        | some c =>
            some (id, dense_weight * ((List.lookup id
                (RagService.vectorScores vector_results)).getD 0)
              + sparse_weight * ((List.lookup id
                (RagService.ftsScores fts_results)).getD 0),
              c.content, headerOf c))
    have htake := List.Pairwise.sublist (List.take_sublist top_k _) hsorted
    refine List.pairwise_filterMap.mpr (htake.imp ?_)
    intro a b hab r hr r' hr'
    rw [Option.mem_def] at hr hr'
    by_cases hca : min_score ≤ a.2.1
    · rw [if_pos hca] at hr
      cases hr
      by_cases hcb : min_score ≤ b.2.1
      · rw [if_pos hcb] at hr'
        cases hr'
        exact hab
      · rw [if_neg hcb] at hr'
        cases hr'
    · rw [if_neg hca] at hr
      cases hr

/-- Witness for C5: a concrete two-chunk store response. -/
theorem mode_b_topk_minscore_witness :
    (RagService.searchHybrid [(⟨1, "a", none⟩, 2), (⟨2, "b", none⟩, 4)]
        [(⟨1, "a", none⟩, 1/10)] (7/10) (3/10) 1 (1/2)).length ≤ 1
      ∧ (∀ r ∈ RagService.searchHybrid [(⟨1, "a", none⟩, 2), (⟨2, "b", none⟩, 4)]
          [(⟨1, "a", none⟩, 1/10)] (7/10) (3/10) 1 (1/2), (1/2 : ℚ) ≤ r.score)
      ∧ List.Pairwise (fun a b : RAGResult => b.score ≤ a.score)
          (RagService.searchHybrid [(⟨1, "a", none⟩, 2), (⟨2, "b", none⟩, 4)]
            [(⟨1, "a", none⟩, 1/10)] (7/10) (3/10) 1 (1/2)) :=
  mode_b_topk_minscore [(⟨1, "a", none⟩, 2), (⟨2, "b", none⟩, 4)]
    [(⟨1, "a", none⟩, 1/10)] (7/10) (3/10) 1 (1/2)

lemma mem_zipWith_index {α β γ : Type} {f : α → β → γ} {as : List α} {bs : List β}
    {x : γ} (h : x ∈ List.zipWith f as bs) :
    ∃ i, ∃ (h1 : i < as.length) (h2 : i < bs.length),
      x = f (as.get ⟨i, h1⟩) (bs.get ⟨i, h2⟩) := by
  rcases List.mem_iff_getElem.mp h with ⟨j, hj, hx⟩
  rw [List.length_zipWith] at hj
  refine ⟨j, lt_of_lt_of_le hj inf_le_left, lt_of_lt_of_le hj inf_le_right, ?_⟩
  rw [← hx, List.getElem_zipWith]
  rfl

/-- C8. `Reranker.rerank`: empty candidate input returns `[]` whatever the
model would answer (the model is not consulted); the output never exceeds
`top_k` elements and is sorted descending by score; and every output
element is some input candidate with its previous fusion score discarded
and replaced by the cross-encoder score of its `(query, content)` pair —
the `i`-th candidate paired with the `i`-th model score. -/
theorem rerank_replaces_sorts_truncates (query : String) (chunks : List RAGChunk)
    (top_k : Nat) (predict : List (String × String) → List ℚ) :
    Reranker.rerank query [] top_k predict = []
      ∧ (Reranker.rerank query chunks top_k predict).length ≤ top_k
      ∧ List.Pairwise (fun a b : RAGChunk => b.score ≤ a.score)
          (Reranker.rerank query chunks top_k predict)
      ∧ (∀ r ∈ Reranker.rerank query chunks top_k predict,
          ∃ i, ∃ (h1 : i < chunks.length)
            (h2 : i < (predict (Reranker.pairsFor query chunks)).length),
            r = Reranker.withScore (chunks.get ⟨i, h1⟩)
              ((predict (Reranker.pairsFor query chunks)).get ⟨i, h2⟩)) := by
  refine ⟨rfl, ?_, ?_, ?_⟩
  · unfold Reranker.rerank
    by_cases h : chunks.isEmpty
    · rw [if_pos h]
      exact Nat.zero_le _
    · rw [if_neg h]
      refine le_trans (le_of_eq (List.length_take _ _)) inf_le_left
  · unfold Reranker.rerank
    by_cases h : chunks.isEmpty
    · rw [if_pos h]
      exact List.Pairwise.nil
    · rw [if_neg h]
      exact List.Pairwise.sublist (List.take_sublist _ _)
        (sortDescBy_pairwise (fun c : RAGChunk => c.score) _)
  · intro r hr
    unfold Reranker.rerank at hr
    by_cases h : chunks.isEmpty
    · rw [if_pos h] at hr
      cases hr
    · rw [if_neg h] at hr
      have hr2 : r ∈ sortDescBy (fun c : RAGChunk => c.score)
          (List.zipWith Reranker.withScore chunks
            (predict (Reranker.pairsFor query chunks))) :=
        (List.take_sublist _ _).mem hr
      have hr3 := mem_sortDescBy.mp hr2
      rcases mem_zipWith_index hr3 with ⟨i, h1, h2, hx⟩
      exact ⟨i, h1, h2, hx⟩

/-- Witness for C8: one candidate rescored by a concrete model answer. -/
theorem rerank_replaces_sorts_truncates_witness :
    Reranker.rerank "q" [] 5 (fun _ => [9/10]) = []
      ∧ (Reranker.rerank "q" [(⟨"1", "a", none, 1/3, "hybrid"⟩ : RAGChunk)] 5
          (fun _ => [9/10])).length ≤ 5
      ∧ List.Pairwise (fun a b : RAGChunk => b.score ≤ a.score)
          (Reranker.rerank "q" [(⟨"1", "a", none, 1/3, "hybrid"⟩ : RAGChunk)] 5
            (fun _ => [9/10]))
      ∧ (∀ r ∈ Reranker.rerank "q" [(⟨"1", "a", none, 1/3, "hybrid"⟩ : RAGChunk)] 5
            (fun _ => [9/10]),
          ∃ i, ∃ (h1 : i < ([(⟨"1", "a", none, 1/3, "hybrid"⟩ : RAGChunk)].length))
            (h2 : i < ((fun _ => [(9:ℚ)/10]) (Reranker.pairsFor "q"
                [(⟨"1", "a", none, 1/3, "hybrid"⟩ : RAGChunk)])).length),
            r = Reranker.withScore
              ([(⟨"1", "a", none, 1/3, "hybrid"⟩ : RAGChunk)].get ⟨i, h1⟩)
              (((fun _ => [(9:ℚ)/10]) (Reranker.pairsFor "q"
                [(⟨"1", "a", none, 1/3, "hybrid"⟩ : RAGChunk)])).get ⟨i, h2⟩)) :=
  rerank_replaces_sorts_truncates "q" [(⟨"1", "a", none, 1/3, "hybrid"⟩ : RAGChunk)] 5
    (fun _ => [9/10])

lemma chunkGo_keep (min_chunk_size nSections : Nat) (sections : List ParsedSection)
    (h : ∀ s ∈ sections, pyStrip s.content ≠ "" ∧ min_chunk_size ≤ s.content.length) :
    ∀ idx, Chunker.chunkGo min_chunk_size nSections idx sections
      = List.zipWith
          (fun (s : ParsedSection) (i : Nat) =>
            ({ content := s.content, chunk_index := i, header := s.header,
               header_level := s.header_level } : ChunkResult))
          sections (List.range' idx sections.length) := by
  induction sections with
  | nil => intro idx; rfl
  | cons s rest ih =>
      intro idx
      obtain ⟨hne, hlen⟩ := h s (List.mem_cons_self _ _)
      have hempty : ¬ (s.content = "" ∨ pyStrip s.content = "") := by
        rintro (h1 | h1)
        · exact hne (by rw [h1]; rfl)
        · exact hne h1
      have hsize : ¬ (s.content.length < min_chunk_size ∧ 1 < nSections) := by
        rintro ⟨h1, _⟩
        omega
      rw [Chunker.chunkGo, if_neg hempty, if_neg hsize,
        ih (fun t ht => h t (List.mem_cons_of_mem _ ht)) (idx + 1),
        List.length_cons, List.range'_succ, List.zipWith_cons_cons]

lemma zipWith_chunk_index (rest : List ParsedSection) : ∀ a : Nat,
    (List.zipWith
      (fun (s : ParsedSection) (i : Nat) =>
        ({ content := s.content, chunk_index := i, header := s.header,
           header_level := s.header_level } : ChunkResult))
      rest (List.range' a rest.length)).map ChunkResult.chunk_index
      = List.range' a rest.length := by
  induction rest with
  | nil => intro a; rfl
  | cons t ts iht =>
      intro a
      rw [List.length_cons, List.range'_succ, List.zipWith_cons_cons, List.map_cons,
        iht (a + 1)]

lemma zipWith_chunk_content (rest : List ParsedSection) : ∀ a : Nat,
    (List.zipWith
      (fun (s : ParsedSection) (i : Nat) =>
        ({ content := s.content, chunk_index := i, header := s.header,
           header_level := s.header_level } : ChunkResult))
      rest (List.range' a rest.length)).map ChunkResult.content
      = rest.map ParsedSection.content := by
  induction rest with
  | nil => intro a; rfl
  | cons t ts iht =>
      intro a
      rw [List.length_cons, List.range'_succ, List.zipWith_cons_cons, List.map_cons,
        List.map_cons, iht (a + 1)]

/-- C6. `Chunker.chunk_sections`: for every section list in which every
section has non-blank content of at least the minimum threshold, the
chunker emits exactly one chunk per section, with contiguous
`chunk_index` values `0..N-1` and the contents in order; and a sole
section with non-blank content shorter than the threshold is still kept
(as the single chunk of the document). -/
theorem chunker_contiguous_and_sole_section :
    (∀ (min_chunk_size : Nat) (sections : List ParsedSection),
      (∀ s ∈ sections, pyStrip s.content ≠ "" ∧ min_chunk_size ≤ s.content.length) →
      (Chunker.chunk_sections min_chunk_size sections).length = sections.length
        ∧ (Chunker.chunk_sections min_chunk_size sections).map ChunkResult.chunk_index
            = List.range sections.length
        ∧ (Chunker.chunk_sections min_chunk_size sections).map ChunkResult.content
            = sections.map ParsedSection.content)
    ∧ (∀ (min_chunk_size : Nat) (s : ParsedSection),
        pyStrip s.content ≠ "" → s.content.length < min_chunk_size →
        Chunker.chunk_sections min_chunk_size [s]
          = [{ content := s.content, chunk_index := 0, header := s.header,
               header_level := s.header_level }]) := by
  constructor
  · intro min_chunk_size sections h
    have hgo := chunkGo_keep min_chunk_size sections.length sections h 0
    rw [Chunker.chunk_sections, hgo]
    have hlenr : (List.range' 0 sections.length).length = sections.length :=
      List.length_range' _ _ _
    refine ⟨?_, ?_, ?_⟩
    · rw [List.length_zipWith, hlenr, min_self]
    · rw [List.range_eq_range']
      exact zipWith_chunk_index sections 0
    · exact zipWith_chunk_content sections 0
  · intro min_chunk_size s hne hshort
    have hempty : ¬ (s.content = "" ∨ pyStrip s.content = "") := by
      rintro (h1 | h1)
      · exact hne (by rw [h1]; rfl)
      · exact hne h1
    have hsize : ¬ (s.content.length < min_chunk_size ∧ 1 < ([s] : List ParsedSection).length) := by
      rintro ⟨_, h2⟩
      simp at h2
    rw [Chunker.chunk_sections, Chunker.chunkGo, if_neg hempty, if_neg hsize]
    rfl

/-- Witness for C6: three well-sized sections, and a sole short section. -/
theorem chunker_contiguous_and_sole_section_witness :
    ((Chunker.chunk_sections 3 [⟨"A", 1, "aaaa"⟩, ⟨"B", 1, "bbbb"⟩, ⟨"C", 1, "cccc"⟩]).length
        = ([⟨"A", 1, "aaaa"⟩, ⟨"B", 1, "bbbb"⟩, (⟨"C", 1, "cccc"⟩ : ParsedSection)]).length
      ∧ (Chunker.chunk_sections 3 [⟨"A", 1, "aaaa"⟩, ⟨"B", 1, "bbbb"⟩, ⟨"C", 1, "cccc"⟩]).map
          ChunkResult.chunk_index
          = List.range ([⟨"A", 1, "aaaa"⟩, ⟨"B", 1, "bbbb"⟩, (⟨"C", 1, "cccc"⟩ : ParsedSection)]).length
      ∧ (Chunker.chunk_sections 3 [⟨"A", 1, "aaaa"⟩, ⟨"B", 1, "bbbb"⟩, ⟨"C", 1, "cccc"⟩]).map
          ChunkResult.content
          = ([⟨"A", 1, "aaaa"⟩, ⟨"B", 1, "bbbb"⟩, (⟨"C", 1, "cccc"⟩ : ParsedSection)]).map
            ParsedSection.content)
    ∧ Chunker.chunk_sections 100 [⟨"A", 1, "short"⟩]
        = [{ content := "short", chunk_index := 0, header := "A", header_level := 1 }] :=
  ⟨chunker_contiguous_and_sole_section.1 3
      [⟨"A", 1, "aaaa"⟩, ⟨"B", 1, "bbbb"⟩, ⟨"C", 1, "cccc"⟩] (by decide),
    chunker_contiguous_and_sole_section.2 100 ⟨"A", 1, "short"⟩ (by decide) (by decide)⟩

lemma generate_batch_of_retry_ok {texts : List String}
    {response embeddings : List (List ℚ)} (hne : ¬ texts = [])
    (hcap : ¬ EmbeddingService.MAX_BATCH_SIZE < texts.length)
    (hr : EmbeddingService.generateWithRetry texts response = Except.ok embeddings) :
    EmbeddingService.generate_batch texts response
      = match embeddings.findIdx? (fun emb =>
            decide (emb.length ≠ EmbeddingService.EMBEDDING_DIMENSION)) with
        | some i => Except.error ("Invalid embedding dimension at index " ++ toString i)
        | none => Except.ok embeddings := by
  unfold EmbeddingService.generate_batch
  rw [if_neg hne, if_neg hcap, hr]

lemma generate_batch_of_retry_error {texts : List String}
    {response : List (List ℚ)} {e : String} (hne : ¬ texts = [])
    (hcap : ¬ EmbeddingService.MAX_BATCH_SIZE < texts.length)
    (hr : EmbeddingService.generateWithRetry texts response = Except.error e) :
    EmbeddingService.generate_batch texts response = Except.error e := by
  unfold EmbeddingService.generate_batch
  rw [if_neg hne, if_neg hcap, hr]

/-- C7. `EmbeddingService.generate_batch`: every batch longer than the
fixed `MAX_BATCH_SIZE = 100` raises `EmbeddingError` (it is never split);
whenever the provider call went through (non-empty batch within the cap,
response count matching) and any returned vector's length differs from
`EMBEDDING_DIMENSION = 1536`, it raises `EmbeddingError`; and on success
the vectors are returned exactly as received — never truncated or padded —
with every vector of the exact dimension. -/
theorem embedding_batch_and_dimension_errors (texts : List String)
    (response : List (List ℚ)) :
    (EmbeddingService.MAX_BATCH_SIZE < texts.length →
      ∃ e, EmbeddingService.generate_batch texts response = Except.error e)
      ∧ (texts ≠ [] → texts.length ≤ EmbeddingService.MAX_BATCH_SIZE →
          response.length = texts.length →
          (∃ emb ∈ response, emb.length ≠ EmbeddingService.EMBEDDING_DIMENSION) →
          ∃ e, EmbeddingService.generate_batch texts response = Except.error e)
      ∧ (∀ out, EmbeddingService.generate_batch texts response = Except.ok out →
          (texts = [] ∧ out = [])
            ∨ (out = response
                ∧ ∀ emb ∈ out, emb.length = EmbeddingService.EMBEDDING_DIMENSION)) := by
  refine ⟨?_, ?_, ?_⟩
  · intro hover
    have hne : ¬ texts = [] := by
      intro h
      rw [h] at hover
      simp [EmbeddingService.MAX_BATCH_SIZE] at hover
    refine ⟨"Batch size " ++ toString texts.length ++ " exceeds maximum "
      ++ toString EmbeddingService.MAX_BATCH_SIZE, ?_⟩
    unfold EmbeddingService.generate_batch
    rw [if_neg hne, if_pos hover]
  · intro hne hcap hcount hbad
    have hretry : EmbeddingService.generateWithRetry texts response = Except.ok response := by
      unfold EmbeddingService.generateWithRetry
      rw [if_neg (by omega)]
    rw [generate_batch_of_retry_ok hne (not_lt_of_le hcap) hretry]
    obtain ⟨emb, hemb, hdim⟩ := hbad
    cases hidx : response.findIdx? fun emb =>
        decide (emb.length ≠ EmbeddingService.EMBEDDING_DIMENSION) with
    | none =>
        exfalso
        have := List.findIdx?_eq_none_iff.mp hidx emb hemb
        simp at this
        exact hdim this
    | some i => exact ⟨_, rfl⟩
  · intro out hout
    by_cases hempty : texts = []
    · unfold EmbeddingService.generate_batch at hout
      rw [if_pos hempty] at hout
      cases hout
      exact Or.inl ⟨hempty, rfl⟩
    · by_cases hover : EmbeddingService.MAX_BATCH_SIZE < texts.length
      · unfold EmbeddingService.generate_batch at hout
        rw [if_neg hempty, if_pos hover] at hout
        cases hout
      · by_cases hcount : response.length = texts.length
        · have hretry : EmbeddingService.generateWithRetry texts response
              = Except.ok response := by
            unfold EmbeddingService.generateWithRetry
            rw [if_neg (by omega)]
          rw [generate_batch_of_retry_ok hempty hover hretry] at hout
          cases hidx : response.findIdx? fun emb =>
              decide (emb.length ≠ EmbeddingService.EMBEDDING_DIMENSION) with
          | none =>
              rw [hidx] at hout
              cases hout
              refine Or.inr ⟨rfl, ?_⟩
              intro emb hemb
              have := List.findIdx?_eq_none_iff.mp hidx emb hemb
              simpa using this
          | some i =>
              rw [hidx] at hout
              cases hout
        · have hretry : EmbeddingService.generateWithRetry texts response
              = Except.error ("Response count mismatch: expected " ++ toString texts.length
                ++ ", got " ++ toString response.length) := by
            unfold EmbeddingService.generateWithRetry
            rw [if_pos (by omega)]
          rw [generate_batch_of_retry_error hempty hover hretry] at hout
          cases hout

/-- Witness for C7: a batch of `101` texts, and a one-text batch whose
response vector is empty (dimension `0 ≠ 1536`). -/
theorem embedding_batch_and_dimension_errors_witness :
    (∃ e, EmbeddingService.generate_batch (List.replicate 101 "x") []
        = Except.error e)
      ∧ (∃ e, EmbeddingService.generate_batch ["a"] [[]] = Except.error e) :=
  ⟨(embedding_batch_and_dimension_errors (List.replicate 101 "x") []).1 (by decide),
    (embedding_batch_and_dimension_errors ["a"] [[]]).2.1 (by decide) (by decide)
      (by decide) ⟨[], by decide, by decide⟩⟩

/-- C9. The claim says errors in the hybrid-search pipeline are always
surfaced to the immediate caller and never replaced by a default or empty
result set. The MCP tool wrapper (`mcp_servers/rag/tools.py`,
`hybrid_search`, lines 127-143) refutes it: with a concrete failing inner
search (the `Domain not found` error raised by the pipeline), the wrapper
catches the exception and returns a successful-looking `RAGSearchResult`
with an empty chunk list and the error text embedded in
`formatted_context`, instead of propagating the error. -/
theorem tools_error_swallowed_counterexample :
    Tools.hybrid_search "products" [] false 15 (7/10) (fun _ => [])
        (Except.error "Domain not found: products")
      = { chunks := [], total_found := 0, domain := "products",
          formatted_context := "❌ Ошибка поиска: Domain not found: products" } := by
  rfl

/-- C9 (amended). `RAGService.search` does surface pipeline errors to its
caller — an unknown domain raises `ValueError: Domain not found` for every
search type and parameter choice — but the MCP tool adapter
`tools.hybrid_search` catches every error of the inner pipeline and
substitutes an empty result set (zero chunks, the error message embedded
in `formatted_context`) instead of surfacing it. -/
theorem error_propagation_split (agent_id search_type : String)
    (fts_results vector_results : List (Chunk × ℚ))
    (dense_weight sparse_weight : ℚ) (top_k : Nat) (min_score : ℚ)
    (domain : String) (vector_queries : List String) (use_reranker : Bool)
    (final_top_k : Nat) (tool_min_score : ℚ)
    (predict : List (String × String) → List ℚ) (e : String) :
    RagService.search agent_id none search_type fts_results vector_results
        dense_weight sparse_weight top_k min_score
      = Except.error ("Domain not found: " ++ agent_id)
      ∧ Tools.hybrid_search domain vector_queries use_reranker final_top_k
          tool_min_score predict (Except.error e)
        = { chunks := [], total_found := 0, domain := domain,
            formatted_context := "❌ Ошибка поиска: " ++ e } :=
  ⟨rfl, rfl⟩

section ParserLemmas

lemma splitAtH1_ne_nil (l : List HTMLParser.Elem) : HTMLParser.splitAtH1 l ≠ [] := by
  cases l with
  | nil => simp [HTMLParser.splitAtH1]
  | cons e rest =>
      unfold HTMLParser.splitAtH1
      by_cases h : e.name = "h1"
      · rw [if_pos h]
        simp
      · rw [if_neg h]
        cases HTMLParser.splitAtH1 rest <;> simp

lemma splitAtH1_mem {l : List HTMLParser.Elem} {seg : List HTMLParser.Elem}
    {e : HTMLParser.Elem} (hseg : seg ∈ HTMLParser.splitAtH1 l) (he : e ∈ seg) :
    e ∈ l ∧ e.name ≠ "h1" := by
  induction l generalizing seg with
  | nil =>
      rw [HTMLParser.splitAtH1] at hseg
      rcases List.mem_singleton.mp hseg with rfl
      cases he
  | cons x rest ih =>
      rw [HTMLParser.splitAtH1] at hseg
      by_cases hx : x.name = "h1"
      · rw [if_pos hx] at hseg
        rcases List.mem_cons.mp hseg with rfl | h2
        · cases he
        · obtain ⟨hmem, hname⟩ := ih h2 he
          exact ⟨List.mem_cons_of_mem _ hmem, hname⟩
      · rw [if_neg hx] at hseg
        cases hsp : HTMLParser.splitAtH1 rest with
        | nil => exact absurd hsp (splitAtH1_ne_nil rest)
        | cons s0 ss =>
            rw [hsp] at hseg
            rcases List.mem_cons.mp hseg with rfl | h2
            · rcases List.mem_cons.mp he with rfl | h3
              · exact ⟨List.mem_cons_self _ _, hx⟩
              · obtain ⟨hmem, hname⟩ := ih (hsp ▸ List.mem_cons_self s0 ss) h3
                exact ⟨List.mem_cons_of_mem _ hmem, hname⟩
            · obtain ⟨hmem, hname⟩ := ih (hsp ▸ List.mem_cons_of_mem s0 h2) he
              exact ⟨List.mem_cons_of_mem _ hmem, hname⟩

end ParserLemmas

/-- C10. `HTMLParser.parse` can return zero sections for a non-empty
document: when at least one `h1` is present, a candidate section is
emitted only if the extracted content between that `h1` and the next is
non-empty, so a document in which every non-`h1` element extracts to
empty text (in particular, a document of bare `h1` headings) parses to
`[]`. When the document has no `h1` at all, `parse` always returns
exactly one section titled `"Document"` with `header_level 1` — even when
its extracted content is empty. -/
theorem html_parser_sections :
    (∀ doc : List HTMLParser.Elem,
      (∃ e ∈ doc, e.name = "h1") →
      (∀ e ∈ doc, e.name ≠ "h1" → e.text = "") →
      HTMLParser.parse doc = [])
    ∧ (∀ doc : List HTMLParser.Elem,
        (∀ e ∈ doc, e.name ≠ "h1") →
        HTMLParser.parse doc
          = [{ header := "Document", header_level := 1,
               content := HTMLParser.extractText doc }]) := by
  constructor
  · intro doc hh1 htext
    unfold HTMLParser.parse
    obtain ⟨e0, he0, he0name⟩ := hh1
    have hfil : doc.filter (fun e => decide (e.name = "h1")) ≠ [] := by
      intro hnil
      have := List.filter_eq_nil_iff.mp hnil e0 he0
      simp [he0name] at this
    rw [if_neg hfil]
    refine List.filterMap_eq_nil_iff.mpr ?_
    intro hs hmem
    have hseg : hs.2 ∈ (HTMLParser.splitAtH1
        (doc.dropWhile fun e => e.name ≠ "h1")).drop 1 := (List.of_mem_zip hmem).2
    have hseg2 := List.mem_of_mem_drop hseg
    have hempty : (hs.2.map HTMLParser.Elem.text).filter (fun t => t ≠ "") = [] := by
      refine List.filter_eq_nil_iff.mpr ?_
      intro t ht
      rcases List.mem_map.mp ht with ⟨el, hel, rfl⟩
      obtain ⟨hmem2, hname⟩ := splitAtH1_mem hseg2 hel
      have hmem3 : el ∈ doc := (List.dropWhile_sublist _).mem hmem2
      simp [htext el hmem3 hname]
    rw [hempty]
    rfl
  · intro doc hnone
    unfold HTMLParser.parse
    have hfil : doc.filter (fun e => decide (e.name = "h1")) = [] :=
      List.filter_eq_nil_iff.mpr fun e he => by simp [hnone e he]
    rw [if_pos hfil]

/-- Witness for C10: two bare `h1` headings parse to zero sections; the
empty document (no `h1`) parses to the single generic `"Document"` section,
whose extracted content is empty. -/
theorem html_parser_sections_witness :
    HTMLParser.parse [⟨"h1", "A"⟩, ⟨"h1", "B"⟩] = []
      ∧ HTMLParser.parse [⟨"div", "x"⟩]
        = [{ header := "Document", header_level := 1,
             content := HTMLParser.extractText [⟨"div", "x"⟩] }]
      ∧ HTMLParser.parse ([] : List HTMLParser.Elem)
        = [{ header := "Document", header_level := 1, content := "" }] :=
  ⟨html_parser_sections.1 [⟨"h1", "A"⟩, ⟨"h1", "B"⟩]
      ⟨⟨"h1", "A"⟩, by decide, by decide⟩ (by decide),
    html_parser_sections.2 [⟨"div", "x"⟩] (by decide),
    html_parser_sections.2 [] (by decide)⟩

/-- Witness for C9 (amended): concrete unknown-domain search and a concrete
swallowed error in the tool adapter. -/
theorem error_propagation_split_witness :
    RagService.search "products" none "hybrid" [] [] (7/10) (3/10) 5 (7/10)
        = Except.error ("Domain not found: " ++ "products")
      ∧ Tools.hybrid_search "products" [] false 15 (7/10) (fun _ => [])
          (Except.error "boom")
        = { chunks := [], total_found := 0, domain := "products",
            formatted_context := "❌ Ошибка поиска: " ++ "boom" } :=
  error_propagation_split "products" "hybrid" [] [] (7/10) (3/10) 5 (7/10)
    "products" [] false 15 (7/10) (fun _ => []) "boom"
